import Mathlib

/-
Shallow embedding of the bio-oxide FASTA parser (src/parsers/fasta.rs,
src/seq/mod.rs, src/alphabets/mod.rs). Rust string slices are modelled as
List Char; the Result-returning constructors are modelled with an outcome
type that separates a panic raised by expect from a value actually
returned to the caller.
-/

namespace BioOxide

/-- Whitespace test matching the Unicode White_Space property that Rust
uses for char is_whitespace and str trim. -/
def rustIsWhitespace (c : Char) : Bool :=
  c.toNat = 0x9 || c.toNat = 0xA || c.toNat = 0xB || c.toNat = 0xC ||
  c.toNat = 0xD || c.toNat = 0x20 || c.toNat = 0x85 || c.toNat = 0xA0 ||
  c.toNat = 0x1680 || (0x2000 ≤ c.toNat && c.toNat ≤ 0x200A) ||
  c.toNat = 0x2028 || c.toNat = 0x2029 || c.toNat = 0x202F ||
  c.toNat = 0x205F || c.toNat = 0x3000

/-- Rust str trim_start: drop leading whitespace. -/
def trimStart (s : List Char) : List Char :=
  s.dropWhile rustIsWhitespace

/-- Rust str trim_end: drop trailing whitespace. -/
def trimEnd (s : List Char) : List Char :=
  (s.reverse.dropWhile rustIsWhitespace).reverse

/-- Rust str trim: strip leading and trailing whitespace. -/
def rustTrim (s : List Char) : List Char :=
  trimEnd (trimStart s)

/-- Everything after the first occurrence of c in s. Models the pair
find(c) followed by split_at(index + 1) taking the second half; none when
find fails. -/
def afterFirst (c : Char) : List Char → Option (List Char)
  | [] => none
  | x :: xs => if x = c then some xs else afterFirst c xs

/-- Rust str split_once: split at the first occurrence of c, with the
delimiter removed; none when c does not occur. -/
def splitOnce (c : Char) : List Char → Option (List Char × List Char)
  | [] => none
  | x :: xs =>
    if x = c then some ([], xs)
    else
      match splitOnce c xs with
      | none => none
      | some (l, r) => some (x :: l, r)

/-- Rust to_ascii_uppercase on a single character: ASCII lowercase letters
are mapped to uppercase, every other character is unchanged. -/
def asciiUpper (c : Char) : Char :=
  if 0x61 ≤ c.toNat && c.toNat ≤ 0x7A then Char.ofNat (c.toNat - 0x20) else c

/-- Rust str contains with a single-character pattern. -/
def rustContains (s : List Char) (c : Char) : Bool :=
  s.any (fun x => x == c)

/-- Number of bytes of the UTF-8 encoding of one character; Rust
String::len is the sum of these over the stored characters. -/
def utf8ByteSize (c : Char) : Nat :=
  if c.toNat < 0x80 then 1
  else if c.toNat < 0x800 then 2
  else if c.toNat < 0x10000 then 3
  else 4

/-- Character count of a stored string, as the spec words the length
accessor (sequence length is the character count of the stored sequence
string). Kept separate from FastaSeq.len, which follows the source. -/
def character_count (s : List Char) : Nat :=
  s.length

/-- SeqType from src/seq/mod.rs; the default attribute sits on DNA. -/
inductive SeqType : Type where
  | DNA : SeqType
  | RNA : SeqType
  | Protein : SeqType
  deriving DecidableEq

/-- derive(Default) for SeqType: the variant marked default. -/
def SeqType.default : SeqType := .DNA

/-- Alphabet from src/alphabets/mod.rs; the default attribute sits on
IUPACNucleicAcid. -/
inductive Alphabet : Type where
  | IUPACNucleicAcid : Alphabet
  | IUPACProtein : Alphabet
  deriving DecidableEq

/-- derive(Default) for Alphabet: the variant marked default. -/
def Alphabet.default : Alphabet := .IUPACNucleicAcid

/-- NUCLEIC_ACID_SYMBOLS from src/seq/mod.rs (a BTreeSet in the source;
only membership is ever used, so a list is an adequate model). -/
def NUCLEIC_ACID_SYMBOLS : List Char :=
  ['A', 'C', 'G', 'T', 'U', 'W', 'S', 'M', 'K', 'R', 'Y', 'B', 'D', 'H', 'V', 'N']

/-- AMINOACID_SYMBOLS from src/seq/mod.rs. -/
def AMINOACID_SYMBOLS : List Char :=
  ['A', 'R', 'N', 'D', 'C', 'Q', 'E', 'G', 'H', 'I', 'L', 'K', 'M', 'F', 'P', 'S',
   'T', 'W', 'Y', 'V', 'X']

/-- AMINOACID_EXCLUSIVE_SYMBOLS from src/seq/mod.rs: the set difference of
the amino-acid symbols minus the nucleic-acid symbols. -/
def AMINOACID_EXCLUSIVE_SYMBOLS : List Char :=
  AMINOACID_SYMBOLS.filter (fun c => !(NUCLEIC_ACID_SYMBOLS.contains c))

/-- The distinct messages of the three expect calls in
FastaSeq::from_string, in source order. -/
inductive PanicMsg : Type where
  | noHeaderMarker : PanicMsg
  | noNewlineAfterHeader : PanicMsg
  | missingId : PanicMsg
  deriving DecidableEq

/-- Stand-in for std::io::Error, the error type of the Result returned by
the parsing constructors. The source never constructs one. -/
structure IOError : Type where
  message : List Char
  deriving DecidableEq

/-- Rust Result with its Ok and Err variants. -/
inductive RustResult (ε α : Type) : Type where
  | ok : α → RustResult ε α
  | err : ε → RustResult ε α
  deriving DecidableEq

/-- Outcome of calling a Rust function returning Result: either the call
panicked (via expect), or it returned an Ok or Err value to the caller. -/
inductive PResult (α : Type) : Type where
  | panicked : PanicMsg → PResult α
  | returned : RustResult IOError α → PResult α
  deriving DecidableEq

/-- True exactly when the call returned the Err variant to the caller. -/
def PResult.isErr {α : Type} : PResult α → Bool
  | .returned (.err _) => true
  | _ => false

/-- Rust Option::expect on an optional intermediate value: a missing value
panics with the message of the corresponding expect call, a present value
flows on as an Ok. -/
def expectSome {α : Type} (msg : PanicMsg) : Option α → PResult α
  | none => .panicked msg
  | some v => .returned (.ok v)

/-- Sequencing of fallible steps: a panic or an Err short-circuits (as the
question-mark operator does for Err), an Ok value feeds the continuation. -/
def PResult.andThen {α β : Type} (x : PResult α) (f : α → PResult β) : PResult β :=
  match x with
  | .panicked m => .panicked m
  | .returned (.err e) => .returned (.err e)
  | .returned (.ok v) => f v

/-- The FastaSeq struct from src/parsers/fasta.rs. -/
structure FastaSeq : Type where
  sequence : List Char
  alphabet : Alphabet
  seq_type : SeqType
  id : List Char
  desc : Option (List Char)
  deriving DecidableEq

/-- FastaSeq::new: plain field construction, no validation. -/
def FastaSeq.new (sequence : List Char) (alphabet : Alphabet) (seq_type : SeqType)
    (id : List Char) (desc : Option (List Char)) : FastaSeq :=
  ⟨sequence, alphabet, seq_type, id, desc⟩

/-- FastaSeq::from_string. The three expect calls of the source become the
three panicked outcomes; the final Ok(Self::new(..)) becomes returned ok. -/
def FastaSeq.from_string (input_str : List Char) (seq_type : SeqType)
    (alphabet : Alphabet) : PResult FastaSeq :=
  (expectSome .noHeaderMarker (afterFirst '>' input_str)).andThen (fun afterMarker =>
  (expectSome .noNewlineAfterHeader (splitOnce '\n' afterMarker)).andThen (fun hs =>
    if rustTrim ((splitOnce ' ' hs.1).getD (hs.1, [])).1 = [] then
      .panicked .missingId
    else
      .returned (.ok (FastaSeq.new
        (rustTrim (hs.2.filter (fun c => c ≠ '\n')))
        alphabet seq_type
        (rustTrim ((splitOnce ' ' hs.1).getD (hs.1, [])).1)
        (if ((splitOnce ' ' hs.1).getD (hs.1, [])).2 = [] then none
         else some (rustTrim ((splitOnce ' ' hs.1).getD (hs.1, [])).2))))))

/-- FastaSeq::infer_type_and_alphabet. -/
def FastaSeq.infer_type_and_alphabet (input_str : List Char) :
    RustResult IOError (SeqType × Alphabet) :=
  let input_str_value := input_str.map asciiUpper
  if rustContains input_str_value 'U' then
    .ok (.RNA, .IUPACNucleicAcid)
  else if AMINOACID_EXCLUSIVE_SYMBOLS.any (fun symbol => rustContains input_str_value symbol) then
    .ok (.Protein, .IUPACProtein)
  else
    .ok (SeqType.default, Alphabet.default)

/-- FastaSeq::from_string_inferred: structural extraction with provisional
DNA and IUPACNucleicAcid, then reclassification of the extracted sequence;
a panic propagates, and the question-mark operator propagates an Err. -/
def FastaSeq.from_string_inferred (input_str : List Char) : PResult FastaSeq :=
  (FastaSeq.from_string input_str .DNA .IUPACNucleicAcid).andThen (fun fasta_seq =>
    match FastaSeq.infer_type_and_alphabet fasta_seq.sequence with
    | .err e => .returned (.err e)
    | .ok (seq_type, alphabet) =>
      .returned (.ok (FastaSeq.new fasta_seq.sequence alphabet seq_type
        fasta_seq.id fasta_seq.desc)))

/-- FastaSeq::len: the byte length of the stored sequence string (Rust
String::len counts UTF-8 bytes, not characters). -/
def FastaSeq.len (s : FastaSeq) : Nat :=
  (s.sequence.map utf8ByteSize).sum

/-- Sanity check against the first unit test of the source file: the
embedding reproduces the exact record the repository test asserts. -/
theorem from_string_repo_test_vector :
    FastaSeq.from_string ("  \n>Seq1 Homo Sapiens COX1\nACTGGGTGTGT\n\nAAATTTGG\nATG".toList)
      .DNA .IUPACNucleicAcid
      = .returned (.ok (FastaSeq.new ("ACTGGGTGTGTAAATTTGGATG".toList)
          .IUPACNucleicAcid .DNA ("Seq1".toList) (some ("Homo Sapiens COX1".toList)))) := by
  decide

theorem afterFirst_eq_none_iff (c : Char) (s : List Char) :
    afterFirst c s = none ↔ c ∉ s := by
  induction s with
  | nil => simp [afterFirst]
  | cons x xs ih =>
    by_cases h : x = c
    · subst h
      simp [afterFirst]
    · simp [afterFirst, h, ih, Ne.symm h]

theorem splitOnce_eq_none_iff (c : Char) (s : List Char) :
    splitOnce c s = none ↔ c ∉ s := by
  induction s with
  | nil => simp [splitOnce]
  | cons x xs ih =>
    by_cases h : x = c
    · subst h
      simp [splitOnce]
    · rw [splitOnce, if_neg h]
      cases hs : splitOnce c xs with
      | none =>
        rw [hs] at ih
        simp [List.mem_cons, Ne.symm h, ih.mp rfl]
      | some pr =>
        rw [hs] at ih
        have hmem : c ∈ xs := by
          by_contra hnot
          exact absurd (ih.mpr hnot) (by simp)
        obtain ⟨l, r⟩ := pr
        simp [List.mem_cons, hmem]

theorem splitOnce_append (c : Char) (l r : List Char) (h : c ∉ l) :
    splitOnce c (l ++ c :: r) = some (l, r) := by
  induction l with
  | nil => simp [splitOnce]
  | cons x xs ih =>
    have hx : x ≠ c := fun hxc => h (hxc ▸ List.mem_cons_self x xs)
    have hxs : c ∉ xs := fun hm => h (List.mem_cons_of_mem x hm)
    rw [List.cons_append, splitOnce, if_neg hx, ih hxs]

theorem mem_of_mem_dropWhile (p : Char → Bool) (c : Char) :
    ∀ l : List Char, c ∈ l.dropWhile p → c ∈ l := by
  intro l
  induction l with
  | nil => simp
  | cons x xs ih =>
    by_cases h : p x
    · rw [List.dropWhile_cons, if_pos h]
      exact fun hm => List.mem_cons_of_mem x (ih hm)
    · rw [List.dropWhile_cons, if_neg h]
      exact id

theorem dropWhile_head_false (p : Char → Bool) :
    ∀ (l : List Char) (x : Char) (xs : List Char), l.dropWhile p = x :: xs → p x = false := by
  intro l
  induction l with
  | nil => intro x xs h; simp [List.dropWhile] at h
  | cons a as ih =>
    intro x xs h
    by_cases ha : p a
    · rw [List.dropWhile_cons, if_pos ha] at h
      exact ih x xs h
    · rw [List.dropWhile_cons, if_neg ha] at h
      cases h
      simpa using ha

theorem mem_dropWhile_append_of_false (p : Char → Bool) (c : Char) (h : p c = false) :
    ∀ l : List Char, c ∈ (l ++ [c]).dropWhile p := by
  intro l
  induction l with
  | nil => simp [List.dropWhile_cons, h]
  | cons x xs ih =>
    by_cases hx : p x
    · rw [List.cons_append, List.dropWhile_cons, if_pos hx]
      exact ih
    · rw [List.cons_append, List.dropWhile_cons, if_neg hx]
      simp

theorem mem_of_mem_rustTrim (c : Char) (s : List Char) (h : c ∈ rustTrim s) : c ∈ s := by
  unfold rustTrim trimEnd trimStart at h
  rw [List.mem_reverse] at h
  have h2 := mem_of_mem_dropWhile rustIsWhitespace c _ h
  rw [List.mem_reverse] at h2
  exact mem_of_mem_dropWhile rustIsWhitespace c s h2

theorem rustTrim_has_nonws (s : List Char) (h : rustTrim s ≠ []) :
    ∃ c ∈ rustTrim s, rustIsWhitespace c = false := by
  cases ht : trimStart s with
  | nil =>
    exact absurd (by simp [rustTrim, ht, trimEnd]) h
  | cons x xs =>
    have hx : rustIsWhitespace x = false := dropWhile_head_false rustIsWhitespace s x xs ht
    refine ⟨x, ?_, hx⟩
    show x ∈ rustTrim s
    unfold rustTrim trimEnd
    rw [ht, List.mem_reverse]
    have : (x :: xs).reverse = xs.reverse ++ [x] := by simp
    rw [this]
    exact mem_dropWhile_append_of_false rustIsWhitespace x hx xs.reverse

theorem rustTrim_eq_self (s : List Char) (h : ∀ c ∈ s, rustIsWhitespace c = false) :
    rustTrim s = s := by
  have hstart : ∀ l : List Char, (∀ c ∈ l, rustIsWhitespace c = false) →
      l.dropWhile rustIsWhitespace = l := by
    intro l hl
    cases l with
    | nil => simp
    | cons x xs => rw [List.dropWhile_cons, if_neg (by simp [hl x (by simp)])]
  unfold rustTrim trimEnd trimStart
  rw [hstart s h, hstart s.reverse (fun c hc => h c (List.mem_reverse.mp hc)), List.reverse_reverse]

theorem sum_map_utf8_eq_length (l : List Char) (h : ∀ c ∈ l, c.toNat < 128) :
    (l.map utf8ByteSize).sum = l.length := by
  induction l with
  | nil => simp
  | cons x xs ih =>
    have hx : utf8ByteSize x = 1 := by
      unfold utf8ByteSize
      rw [if_pos (h x (by simp))]
    simp only [List.map_cons, List.sum_cons, List.length_cons, hx,
      ih (fun c hc => h c (List.mem_cons_of_mem x hc))]
    omega

theorem rustContains_iff (s : List Char) (c : Char) :
    rustContains s c = true ↔ c ∈ s := by
  unfold rustContains
  simp [List.any_eq_true]

theorem rustContains_eq_false_iff (s : List Char) (c : Char) :
    rustContains s c = false ↔ c ∉ s := by
  rw [← rustContains_iff]
  constructor
  · intro h hc
    rw [h] at hc
    cases hc
  · intro h
    cases hb : rustContains s c with
    | false => rfl
    | true => exact absurd hb h

theorem infer_eq_ok (s : List Char) :
    ∃ p, FastaSeq.infer_type_and_alphabet s = .ok p := by
  simp only [FastaSeq.infer_type_and_alphabet]
  split
  · exact ⟨_, rfl⟩
  · split
    · exact ⟨_, rfl⟩
    · exact ⟨_, rfl⟩

/-- C4: classification is case-insensitive and checks RNA first: every
string containing U or u is classified as RNA over the nucleic-acid
alphabet, even when amino-acid-exclusive letters are also present. -/
theorem infer_rna_of_contains_u (s : List Char) (h : 'U' ∈ s ∨ 'u' ∈ s) :
    FastaSeq.infer_type_and_alphabet s = .ok (.RNA, .IUPACNucleicAcid) := by
  have hmem : 'U' ∈ s.map asciiUpper := by
    cases h with
    | inl hU => exact List.mem_map.mpr ⟨'U', hU, by decide⟩
    | inr hu => exact List.mem_map.mpr ⟨'u', hu, by decide⟩
  have hc : rustContains (s.map asciiUpper) 'U' = true := (rustContains_iff _ _).mpr hmem
  simp [FastaSeq.infer_type_and_alphabet, hc]

theorem infer_rna_of_contains_u_witness :
    FastaSeq.infer_type_and_alphabet ("ACUWE".toList) = .ok (.RNA, .IUPACNucleicAcid) :=
  infer_rna_of_contains_u ("ACUWE".toList) (Or.inl (by decide))

/-- C5 (amended): the amino-acid-exclusive symbol set is the set
difference of the amino-acid symbols minus the nucleic-acid symbols,
namely Q, E, I, L, F, P, X — Z is not among them, since Z is not in the
amino-acid table — and every string with no U or u that contains,
case-insensitively, one of these symbols classifies as Protein over the
Protein alphabet. -/
theorem infer_protein_of_exclusive :
    AMINOACID_EXCLUSIVE_SYMBOLS = ['Q', 'E', 'I', 'L', 'F', 'P', 'X'] ∧
    ∀ s : List Char, (∀ c ∈ s, asciiUpper c ≠ 'U') →
      (∃ c ∈ s, asciiUpper c ∈ AMINOACID_EXCLUSIVE_SYMBOLS) →
      FastaSeq.infer_type_and_alphabet s = .ok (.Protein, .IUPACProtein) := by
  refine ⟨by decide, ?_⟩
  intro s hnoU hex
  have hU : rustContains (s.map asciiUpper) 'U' = false := by
    rw [rustContains_eq_false_iff]
    intro hmem
    obtain ⟨c, hc, hceq⟩ := List.mem_map.mp hmem
    exact hnoU c hc hceq
  have hexc : AMINOACID_EXCLUSIVE_SYMBOLS.any
      (fun symbol => rustContains (s.map asciiUpper) symbol) = true := by
    rw [List.any_eq_true]
    obtain ⟨c, hc, hmem⟩ := hex
    exact ⟨asciiUpper c, hmem, (rustContains_iff _ _).mpr (List.mem_map.mpr ⟨c, hc, rfl⟩)⟩
  simp [FastaSeq.infer_type_and_alphabet, hU, hexc]

/-- C5 counterexample: Z is not an amino-acid-exclusive symbol (it is not
even in the amino-acid table), and a string consisting of Z alone, which
contains no U, classifies as the DNA default rather than as Protein. -/
theorem z_not_exclusive_cex :
    'Z' ∉ AMINOACID_EXCLUSIVE_SYMBOLS ∧ 'Z' ∉ AMINOACID_SYMBOLS ∧
    FastaSeq.infer_type_and_alphabet ['Z'] = .ok (.DNA, .IUPACNucleicAcid) := by
  decide

/-- C6: classification is total and never fails: every string yields some
ok pair, the default pair is DNA with the nucleic-acid alphabet, and every
string with, case-insensitively, no U and no amino-acid-exclusive symbol
falls through to that default. -/
theorem infer_total_and_default (s : List Char) :
    (∃ p, FastaSeq.infer_type_and_alphabet s = .ok p) ∧
    (SeqType.default = .DNA ∧ Alphabet.default = .IUPACNucleicAcid) ∧
    (((∀ c ∈ s, asciiUpper c ≠ 'U') ∧ ∀ c ∈ s, asciiUpper c ∉ AMINOACID_EXCLUSIVE_SYMBOLS) →
      FastaSeq.infer_type_and_alphabet s = .ok (SeqType.default, Alphabet.default)) := by
  refine ⟨infer_eq_ok s, ⟨rfl, rfl⟩, ?_⟩
  rintro ⟨hnoU, hnoE⟩
  have hU : rustContains (s.map asciiUpper) 'U' = false := by
    rw [rustContains_eq_false_iff]
    intro hmem
    obtain ⟨c, hc, hceq⟩ := List.mem_map.mp hmem
    exact hnoU c hc hceq
  have hexc : AMINOACID_EXCLUSIVE_SYMBOLS.any
      (fun symbol => rustContains (s.map asciiUpper) symbol) = false := by
    rw [List.any_eq_false]
    intro sym hsym
    intro hcontra
    obtain ⟨x, hx, hxeq⟩ := List.mem_map.mp ((rustContains_iff _ _).mp hcontra)
    exact hnoE x hx (hxeq ▸ hsym)
  simp [FastaSeq.infer_type_and_alphabet, hU, hexc]

/-- C7: round-trip identity of explicit parsing: whenever from_string
returns a record, its seq_type and alphabet are exactly the caller-supplied
values. -/
theorem from_string_roundtrip (input : List Char) (t : SeqType) (a : Alphabet) (r : FastaSeq)
    (h : FastaSeq.from_string input t a = .returned (.ok r)) :
    r.seq_type = t ∧ r.alphabet = a := by
  unfold FastaSeq.from_string at h
  cases haf : afterFirst '>' input with
  | none => rw [haf] at h; simp [expectSome, PResult.andThen] at h
  | some am =>
    rw [haf] at h
    simp only [expectSome, PResult.andThen] at h
    cases hsp : splitOnce '\n' am with
    | none => rw [hsp] at h; simp [expectSome, PResult.andThen] at h
    | some pr =>
      rw [hsp] at h
      simp only [expectSome, PResult.andThen] at h
      by_cases hid : rustTrim ((splitOnce ' ' pr.1).getD (pr.1, [])).1 = []
      · rw [if_pos hid] at h
        simp at h
      · rw [if_neg hid] at h
        simp only [PResult.returned.injEq, RustResult.ok.injEq] at h
        subst h
        exact ⟨rfl, rfl⟩

theorem from_string_roundtrip_witness :
    (FastaSeq.new ("ACGT".toList) .IUPACProtein .Protein ("ID".toList) none).seq_type
        = .Protein ∧
    (FastaSeq.new ("ACGT".toList) .IUPACProtein .Protein ("ID".toList) none).alphabet
        = .IUPACProtein :=
  from_string_roundtrip (">ID\nACGT".toList) .Protein .IUPACProtein
    (FastaSeq.new ("ACGT".toList) .IUPACProtein .Protein ("ID".toList) none) (by decide)

/-- C9: from_string and from_string_inferred never return the Err variant
of their Result type: whenever either returns at all, it returns Ok; the
failure paths are the panics. -/
theorem from_string_never_err (input : List Char) (t : SeqType) (a : Alphabet) :
    (FastaSeq.from_string input t a).isErr = false ∧
    (FastaSeq.from_string_inferred input).isErr = false := by
  have key : ∀ (inp : List Char) (t2 : SeqType) (a2 : Alphabet),
      (FastaSeq.from_string inp t2 a2).isErr = false := by
    intro inp t2 a2
    unfold FastaSeq.from_string
    cases haf : afterFirst '>' inp with
    | none => rfl
    | some am =>
      simp only [expectSome, PResult.andThen]
      cases hsp : splitOnce '\n' am with
      | none => rfl
      | some pr =>
        simp only [expectSome, PResult.andThen]
        by_cases hid : rustTrim ((splitOnce ' ' pr.1).getD (pr.1, [])).1 = []
        · rw [if_pos hid]
          rfl
        · rw [if_neg hid]
          rfl
  refine ⟨key input t a, ?_⟩
  unfold FastaSeq.from_string_inferred
  cases hfs : FastaSeq.from_string input .DNA .IUPACNucleicAcid with
  | panicked m => rfl
  | returned res =>
    cases res with
    | err e =>
      have hk := key input .DNA .IUPACNucleicAcid
      rw [hfs] at hk
      simp [PResult.isErr] at hk
    | ok fs =>
      simp only [PResult.andThen]
      obtain ⟨p, hp⟩ := infer_eq_ok fs.sequence
      rw [hp]
      obtain ⟨st, al⟩ := p
      rfl

theorem from_string_eq_noHeader (input : List Char) (t : SeqType) (a : Alphabet)
    (h : afterFirst '>' input = none) :
    FastaSeq.from_string input t a = .panicked .noHeaderMarker := by
  unfold FastaSeq.from_string
  rw [h]
  rfl

theorem from_string_eq_noNewline (input : List Char) (t : SeqType) (a : Alphabet)
    (am : List Char) (h1 : afterFirst '>' input = some am)
    (h2 : splitOnce '\n' am = none) :
    FastaSeq.from_string input t a = .panicked .noNewlineAfterHeader := by
  unfold FastaSeq.from_string
  rw [h1]
  simp only [expectSome, PResult.andThen]
  rw [h2]

theorem from_string_eq_missingId (input : List Char) (t : SeqType) (a : Alphabet)
    (am : List Char) (hs : List Char × List Char)
    (h1 : afterFirst '>' input = some am) (h2 : splitOnce '\n' am = some hs)
    (h3 : rustTrim ((splitOnce ' ' hs.1).getD (hs.1, [])).1 = []) :
    FastaSeq.from_string input t a = .panicked .missingId := by
  unfold FastaSeq.from_string
  rw [h1]
  simp only [expectSome, PResult.andThen]
  rw [h2]
  simp only [expectSome, PResult.andThen]
  rw [if_pos h3]

theorem from_string_eq_ok (input : List Char) (t : SeqType) (a : Alphabet)
    (am : List Char) (hs : List Char × List Char)
    (h1 : afterFirst '>' input = some am) (h2 : splitOnce '\n' am = some hs)
    (h3 : rustTrim ((splitOnce ' ' hs.1).getD (hs.1, [])).1 ≠ []) :
    FastaSeq.from_string input t a = .returned (.ok (FastaSeq.new
      (rustTrim (hs.2.filter (fun c => c ≠ '\n')))
      a t
      (rustTrim ((splitOnce ' ' hs.1).getD (hs.1, [])).1)
      (if ((splitOnce ' ' hs.1).getD (hs.1, [])).2 = [] then none
       else some (rustTrim ((splitOnce ' ' hs.1).getD (hs.1, [])).2)))) := by
  unfold FastaSeq.from_string
  rw [h1]
  simp only [expectSome, PResult.andThen]
  rw [h2]
  simp only [expectSome, PResult.andThen]
  rw [if_neg h3]

/-- C1 (amended): from_string fails by panicking with a distinguishable
message, not by returning an error value: it panics with the no-header
message exactly when the input contains no greater-than marker, with the
no-newline message exactly when no newline follows the first marker, with
the missing-id message exactly when the identifier token trims to empty,
and in every remaining case it returns Ok with a fully constructed record;
there is no partially-constructed outcome. -/
theorem from_string_outcomes (input : List Char) (t : SeqType) (a : Alphabet) :
    (FastaSeq.from_string input t a = .panicked .noHeaderMarker ↔ '>' ∉ input) ∧
    (FastaSeq.from_string input t a = .panicked .noNewlineAfterHeader ↔
      ∃ am, afterFirst '>' input = some am ∧ '\n' ∉ am) ∧
    (FastaSeq.from_string input t a = .panicked .missingId ↔
      ∃ am hs, afterFirst '>' input = some am ∧ splitOnce '\n' am = some hs ∧
        rustTrim ((splitOnce ' ' hs.1).getD (hs.1, [])).1 = []) ∧
    ((∃ m, FastaSeq.from_string input t a = .panicked m) ∨
      ∃ r, FastaSeq.from_string input t a = .returned (.ok r)) := by
  cases haf : afterFirst '>' input with
  | none =>
    have he := from_string_eq_noHeader input t a haf
    refine ⟨?_, ?_, ?_, Or.inl ⟨_, he⟩⟩
    · simp [he, (afterFirst_eq_none_iff '>' input).mp haf]
    · simp [he, haf]
    · simp [he, haf]
  | some am =>
    have hmem : '>' ∈ input := by
      by_contra hnot
      rw [← afterFirst_eq_none_iff] at hnot
      rw [haf] at hnot
      cases hnot
    cases hsp : splitOnce '\n' am with
    | none =>
      have he := from_string_eq_noNewline input t a am haf hsp
      have hnl : '\n' ∉ am := (splitOnce_eq_none_iff '\n' am).mp hsp
      refine ⟨?_, ?_, ?_, Or.inl ⟨_, he⟩⟩
      · simp [he, hmem]
      · simp [he, haf, hnl]
      · simp [he, haf, hsp]
    | some hs =>
      obtain ⟨hsl, hsr⟩ := hs
      have hnl : '\n' ∈ am := by
        by_contra hnot
        rw [← splitOnce_eq_none_iff] at hnot
        rw [hsp] at hnot
        cases hnot
      by_cases hid : rustTrim ((splitOnce ' ' hsl).getD (hsl, [])).1 = []
      · have he := from_string_eq_missingId input t a am (hsl, hsr) haf hsp hid
        refine ⟨?_, ?_, ?_, Or.inl ⟨_, he⟩⟩
        · simp [he, hmem]
        · simp [he, haf, hnl]
        · simp [he, haf, hsp, hid]
      · have he := from_string_eq_ok input t a am (hsl, hsr) haf hsp hid
        refine ⟨?_, ?_, ?_, Or.inr ⟨_, he⟩⟩
        · simp [he, hmem]
        · simp [he, haf, hnl]
        · simp [he, haf, hsp, hid]

/-- C1 counterexample: on an input with no header marker the parser does
not surface any error outcome to the caller — it panics, and the returned
Err variant is never produced. -/
theorem no_error_outcome_cex :
    FastaSeq.from_string ("no header here".toList) .DNA .IUPACNucleicAcid
      = .panicked .noHeaderMarker ∧
    (FastaSeq.from_string ("no header here".toList) .DNA .IUPACNucleicAcid).isErr
      = false := by
  decide

/-- C2 (amended): the description is absent exactly when the raw text
after the first space of the header is empty; when that raw text is
nonempty it is stored trimmed, so a whitespace-only raw description yields
the empty description Some rather than None. The specific example of a
single trailing space still yields None, because split_once consumes the
delimiter. -/
theorem from_string_desc_behavior (t : SeqType) (a : Alphabet)
    (idtok desctok body : List Char)
    (hid_nl : '\n' ∉ idtok) (hid_sp : ' ' ∉ idtok) (hdesc_nl : '\n' ∉ desctok)
    (hid : rustTrim idtok ≠ []) :
    FastaSeq.from_string ('>' :: ((idtok ++ ' ' :: desctok) ++ '\n' :: body)) t a
      = .returned (.ok (FastaSeq.new (rustTrim (body.filter (fun c => c ≠ '\n'))) a t
          (rustTrim idtok)
          (if desctok = [] then none else some (rustTrim desctok)))) := by
  have haf : afterFirst '>' ('>' :: ((idtok ++ ' ' :: desctok) ++ '\n' :: body))
      = some ((idtok ++ ' ' :: desctok) ++ '\n' :: body) := by
    simp [afterFirst]
  have hnlid : '\n' ∉ idtok ++ ' ' :: desctok := by
    simp only [List.mem_append, List.mem_cons]
    rintro (h | h | h)
    · exact hid_nl h
    · cases h
    · exact hdesc_nl h
  have hsp : splitOnce '\n' ((idtok ++ ' ' :: desctok) ++ '\n' :: body)
      = some (idtok ++ ' ' :: desctok, body) :=
    splitOnce_append '\n' (idtok ++ ' ' :: desctok) body hnlid
  have hsp2 : splitOnce ' ' (idtok ++ ' ' :: desctok) = some (idtok, desctok) :=
    splitOnce_append ' ' idtok desctok hid_sp
  have hid3 : rustTrim ((splitOnce ' '
      ((idtok ++ ' ' :: desctok, body) : List Char × List Char).1).getD
        (((idtok ++ ' ' :: desctok, body) : List Char × List Char).1, [])).1 ≠ [] := by
    simpa [hsp2] using hid
  have he := from_string_eq_ok ('>' :: ((idtok ++ ' ' :: desctok) ++ '\n' :: body)) t a
    ((idtok ++ ' ' :: desctok) ++ '\n' :: body) (idtok ++ ' ' :: desctok, body)
    haf hsp hid3
  rw [he]
  simp [hsp2]

theorem from_string_desc_behavior_witness :
    FastaSeq.from_string ('>' :: ((("ID".toList) ++ ' ' :: [' ']) ++ '\n' :: ("ACGT".toList)))
      .DNA .IUPACNucleicAcid
      = .returned (.ok (FastaSeq.new ("ACGT".toList) .IUPACNucleicAcid .DNA
          ("ID".toList) (some []))) :=
  from_string_desc_behavior .DNA .IUPACNucleicAcid ("ID".toList) [' '] ("ACGT".toList)
    (by decide) (by decide) (by decide) (by decide)

/-- C2 counterexample: with two spaces after the identifier the raw
description is a single space, which trims to empty, yet the parsed record
stores Some of the empty string instead of None — the source tests the
description for emptiness before trimming it. -/
theorem desc_some_empty_cex :
    FastaSeq.from_string (">ID  \nACGT".toList) .DNA .IUPACNucleicAcid
      = .returned (.ok (FastaSeq.new ("ACGT".toList) .IUPACNucleicAcid .DNA ("ID".toList)
          (some []))) ∧
    rustTrim [' '] = [] := by
  decide

/-- C3 (amended): len is the UTF-8 byte length of the stored sequence, so
it equals the character count for every successfully parsed record whose
stored sequence is pure ASCII; a non-ASCII sequence makes len strictly
larger than the character count. -/
theorem len_eq_character_count_of_ascii (input : List Char) (t : SeqType) (a : Alphabet)
    (r : FastaSeq) (_hp : FastaSeq.from_string input t a = .returned (.ok r))
    (hascii : ∀ c ∈ r.sequence, c.toNat < 128) :
    r.len = character_count r.sequence := by
  unfold FastaSeq.len character_count
  exact sum_map_utf8_eq_length r.sequence hascii

theorem len_eq_character_count_of_ascii_witness :
    (FastaSeq.new ("ACGT".toList) .IUPACNucleicAcid .DNA ("ID".toList) none).len =
      character_count
        (FastaSeq.new ("ACGT".toList) .IUPACNucleicAcid .DNA ("ID".toList) none).sequence :=
  len_eq_character_count_of_ascii (">ID\nACGT".toList) .DNA .IUPACNucleicAcid
    (FastaSeq.new ("ACGT".toList) .IUPACNucleicAcid .DNA ("ID".toList) none)
    (by decide) (by decide)

/-- C3 counterexample: the parser accepts a non-ASCII sequence character,
and for the resulting record len (the byte length, 2) differs from the
character count of the stored sequence (1). -/
theorem len_byte_length_cex :
    FastaSeq.from_string ('>' :: 'I' :: '\n' :: ['é']) .DNA .IUPACNucleicAcid
      = .returned (.ok (FastaSeq.new ['é'] .IUPACNucleicAcid .DNA ['I'] none)) ∧
    (FastaSeq.new ['é'] .IUPACNucleicAcid .DNA ['I'] none).len ≠
      character_count (FastaSeq.new ['é'] .IUPACNucleicAcid .DNA ['I'] none).sequence := by
  decide

theorem from_string_inferred_fields (input : List Char) (r : FastaSeq)
    (h : FastaSeq.from_string_inferred input = .returned (.ok r)) :
    ∃ r0, FastaSeq.from_string input .DNA .IUPACNucleicAcid = .returned (.ok r0) ∧
      r.id = r0.id ∧ r.sequence = r0.sequence := by
  unfold FastaSeq.from_string_inferred at h
  cases hfs : FastaSeq.from_string input .DNA .IUPACNucleicAcid with
  | panicked m => rw [hfs] at h; simp [PResult.andThen] at h
  | returned res =>
    cases res with
    | err e => rw [hfs] at h; simp [PResult.andThen] at h
    | ok fs =>
      rw [hfs] at h
      simp only [PResult.andThen] at h
      obtain ⟨p, hpv⟩ := infer_eq_ok fs.sequence
      obtain ⟨st, al⟩ := p
      rw [hpv] at h
      simp only [PResult.returned.injEq, RustResult.ok.injEq] at h
      subst h
      exact ⟨fs, hfs ▸ rfl, rfl, rfl⟩

/-- C8 (amended): every record built by the parsing constructors
from_string and from_string_inferred has a nonempty identifier containing
a non-whitespace character, and a stored sequence with no newline
character; the direct field constructor new performs no validation and
does not guarantee this. -/
theorem parsed_record_invariants (input : List Char) (t : SeqType) (a : Alphabet)
    (r : FastaSeq)
    (h : FastaSeq.from_string input t a = .returned (.ok r) ∨
      FastaSeq.from_string_inferred input = .returned (.ok r)) :
    r.id ≠ [] ∧ (∃ c ∈ r.id, rustIsWhitespace c = false) ∧ ∀ c ∈ r.sequence, c ≠ '\n' := by
  have core : ∀ (t2 : SeqType) (a2 : Alphabet) (r2 : FastaSeq),
      FastaSeq.from_string input t2 a2 = .returned (.ok r2) →
      r2.id ≠ [] ∧ (∃ c ∈ r2.id, rustIsWhitespace c = false) ∧
        ∀ c ∈ r2.sequence, c ≠ '\n' := by
    intro t2 a2 r2 h2
    unfold FastaSeq.from_string at h2
    cases haf : afterFirst '>' input with
    | none => rw [haf] at h2; simp [expectSome, PResult.andThen] at h2
    | some am =>
      rw [haf] at h2
      simp only [expectSome, PResult.andThen] at h2
      cases hsp : splitOnce '\n' am with
      | none => rw [hsp] at h2; simp [expectSome, PResult.andThen] at h2
      | some hs =>
        rw [hsp] at h2
        simp only [expectSome, PResult.andThen] at h2
        by_cases hid : rustTrim ((splitOnce ' ' hs.1).getD (hs.1, [])).1 = []
        · rw [if_pos hid] at h2
          simp at h2
        · rw [if_neg hid] at h2
          simp only [PResult.returned.injEq, RustResult.ok.injEq] at h2
          subst h2
          refine ⟨hid, rustTrim_has_nonws _ hid, ?_⟩
          intro c hc
          have hmem := mem_of_mem_rustTrim c _ hc
          rw [List.mem_filter] at hmem
          exact of_decide_eq_true hmem.2
  cases h with
  | inl h1 => exact core t a r h1
  | inr h2 =>
    obtain ⟨r0, hr0, hidq, hseq⟩ := from_string_inferred_fields input r h2
    obtain ⟨k1, k2, k3⟩ := core .DNA .IUPACNucleicAcid r0 hr0
    rw [hidq, hseq]
    exact ⟨k1, k2, k3⟩

theorem parsed_record_invariants_witness :
    (FastaSeq.new ("ACGT".toList) .IUPACNucleicAcid .DNA ("ID".toList) none).id ≠ [] ∧
    (∃ c ∈ (FastaSeq.new ("ACGT".toList) .IUPACNucleicAcid .DNA ("ID".toList) none).id,
      rustIsWhitespace c = false) ∧
    ∀ c ∈ (FastaSeq.new ("ACGT".toList) .IUPACNucleicAcid .DNA ("ID".toList) none).sequence,
      c ≠ '\n' :=
  parsed_record_invariants (">ID\nACGT".toList) .DNA .IUPACNucleicAcid
    (FastaSeq.new ("ACGT".toList) .IUPACNucleicAcid .DNA ("ID".toList) none)
    (Or.inl (by decide))

/-- C8 counterexample: the direct field constructor accepts an empty
identifier and a sequence with an embedded newline, so not every
constructed record satisfies the claimed invariants. -/
theorem new_unvalidated_cex :
    (FastaSeq.new ('A' :: '\n' :: ['C']) .IUPACNucleicAcid .DNA [] none).id = [] ∧
    '\n' ∈ (FastaSeq.new ('A' :: '\n' :: ['C']) .IUPACNucleicAcid .DNA [] none).sequence := by
  decide

theorem trimStart_cons_of_nonws (x : Char) (l : List Char)
    (hx : rustIsWhitespace x = false) : trimStart (x :: l) = x :: l := by
  unfold trimStart
  rw [List.dropWhile_cons, if_neg (by simp [hx])]

theorem trimEnd_append_of_nonws (l1 b : List Char) (hb : b ≠ [])
    (hwb : ∀ c ∈ b, rustIsWhitespace c = false) : trimEnd (l1 ++ b) = l1 ++ b := by
  unfold trimEnd
  obtain ⟨y, ys, hrevb⟩ : ∃ y ys, b.reverse = y :: ys := by
    cases hr : b.reverse with
    | nil => exact absurd (List.reverse_eq_nil_iff.mp hr) hb
    | cons y ys => exact ⟨y, ys, rfl⟩
  have hy : rustIsWhitespace y = false :=
    hwb y (List.mem_reverse.mp (by rw [hrevb]; exact List.mem_cons_self y ys))
  rw [List.reverse_append, hrevb, List.cons_append, List.dropWhile_cons,
    if_neg (by simp [hy]), ← List.cons_append, ← hrevb, ← List.reverse_append,
    List.reverse_reverse]

theorem filter_eq_self_of_ne_nl (l : List Char) (h : ∀ c ∈ l, c ≠ '\n') :
    l.filter (fun c => c ≠ '\n') = l := by
  induction l with
  | nil => rfl
  | cons x xs ih =>
    rw [List.filter_cons, if_pos (by simpa using h x (List.mem_cons_self x xs)),
      ih (fun c hc => h c (List.mem_cons_of_mem x hc))]

/-- C10: sequence normalization removes only line-feed characters before
the final trim: with a body of two non-whitespace lines joined by a
carriage-return line-feed pair, the stored sequence keeps the interior
carriage return, and only the line feeds are gone. -/
theorem from_string_keeps_interior_cr (t : SeqType) (al : Alphabet) (a b : List Char)
    (ha : a ≠ []) (hb : b ≠ [])
    (hwa : ∀ c ∈ a, rustIsWhitespace c = false)
    (hwb : ∀ c ∈ b, rustIsWhitespace c = false) :
    FastaSeq.from_string ('>' :: 'I' :: 'D' :: '\n' :: (a ++ '\r' :: '\n' :: b)) t al
      = .returned (.ok (FastaSeq.new (a ++ '\r' :: b) al t ['I', 'D'] none))
    ∧ '\r' ∈ a ++ '\r' :: b := by
  refine ⟨?_, by simp⟩
  have haf : afterFirst '>' ('>' :: 'I' :: 'D' :: '\n' :: (a ++ '\r' :: '\n' :: b))
      = some ('I' :: 'D' :: '\n' :: (a ++ '\r' :: '\n' :: b)) := by
    simp [afterFirst]
  have h0 : splitOnce '\n' ('\n' :: (a ++ '\r' :: '\n' :: b))
      = some ([], a ++ '\r' :: '\n' :: b) := by
    rw [splitOnce, if_pos rfl]
  have h1 : splitOnce '\n' ('D' :: '\n' :: (a ++ '\r' :: '\n' :: b))
      = some (['D'], a ++ '\r' :: '\n' :: b) := by
    rw [splitOnce, if_neg (by decide), h0]
  have hsp : splitOnce '\n' ('I' :: 'D' :: '\n' :: (a ++ '\r' :: '\n' :: b))
      = some (['I', 'D'], a ++ '\r' :: '\n' :: b) := by
    rw [splitOnce, if_neg (by decide), h1]
  have hsp2 : splitOnce ' ' (['I', 'D'] : List Char) = none := by decide
  have htr2 : rustTrim (['I', 'D'] : List Char) = ['I', 'D'] := by decide
  have hid3 : rustTrim ((splitOnce ' ' (['I', 'D'] : List Char)).getD
      ((['I', 'D'] : List Char), [])).1 ≠ [] := by decide
  have he := from_string_eq_ok ('>' :: 'I' :: 'D' :: '\n' :: (a ++ '\r' :: '\n' :: b)) t al
    ('I' :: 'D' :: '\n' :: (a ++ '\r' :: '\n' :: b)) (['I', 'D'], a ++ '\r' :: '\n' :: b)
    haf hsp hid3
  rw [he]
  have hna : ∀ c ∈ a, c ≠ '\n' := by
    intro c hc hceq
    have := hwa c hc
    rw [hceq] at this
    simp [rustIsWhitespace] at this
  have hnb : ∀ c ∈ b, c ≠ '\n' := by
    intro c hc hceq
    have := hwb c hc
    rw [hceq] at this
    simp [rustIsWhitespace] at this
  have hfil : (a ++ '\r' :: '\n' :: b).filter (fun c => c ≠ '\n') = a ++ '\r' :: b := by
    rw [List.filter_append, filter_eq_self_of_ne_nl a hna, List.filter_cons,
      if_pos (by decide), List.filter_cons, if_neg (by decide),
      filter_eq_self_of_ne_nl b hnb]
  have htrim : rustTrim (a ++ '\r' :: b) = a ++ '\r' :: b := by
    obtain ⟨x, a2, rfl⟩ : ∃ x a2, a = x :: a2 := by
      cases a with
      | nil => exact absurd rfl ha
      | cons x a2 => exact ⟨x, a2, rfl⟩
    unfold rustTrim
    rw [List.cons_append, trimStart_cons_of_nonws x (a2 ++ '\r' :: b)
      (hwa x (List.mem_cons_self x a2)), ← List.cons_append]
    have hsplit : (x :: a2) ++ '\r' :: b = ((x :: a2) ++ ['\r']) ++ b := by
      simp
    rw [hsplit, trimEnd_append_of_nonws ((x :: a2) ++ ['\r']) b hb hwb, ← hsplit]
  show PResult.returned (RustResult.ok (FastaSeq.new
      (rustTrim ((a ++ '\r' :: '\n' :: b).filter (fun c => c ≠ '\n'))) al t
      (rustTrim ((splitOnce ' ' (['I', 'D'] : List Char)).getD
        ((['I', 'D'] : List Char), [])).1)
      (if ((splitOnce ' ' (['I', 'D'] : List Char)).getD
          ((['I', 'D'] : List Char), [])).2 = [] then none
       else some (rustTrim ((splitOnce ' ' (['I', 'D'] : List Char)).getD
          ((['I', 'D'] : List Char), [])).2))))
    = PResult.returned (RustResult.ok (FastaSeq.new (a ++ '\r' :: b) al t ['I', 'D'] none))
  rw [hfil, htrim, hsp2]
  simp [htr2]

theorem from_string_keeps_interior_cr_witness :
    FastaSeq.from_string
      ('>' :: 'I' :: 'D' :: '\n' :: (("AC".toList) ++ '\r' :: '\n' :: ("GT".toList))) .DNA
      .IUPACNucleicAcid
      = .returned (.ok (FastaSeq.new (("AC".toList) ++ '\r' :: ("GT".toList))
          .IUPACNucleicAcid .DNA ['I', 'D'] none))
    ∧ '\r' ∈ ("AC".toList) ++ '\r' :: ("GT".toList) :=
  from_string_keeps_interior_cr .DNA .IUPACNucleicAcid ("AC".toList) ("GT".toList)
    (by decide) (by decide) (by decide) (by decide)

end BioOxide
